import Mathlib

/-!
Shallow embedding of the filament fg2 frame-graph core
(src/filament/src/fg2/FrameGraph.h, src/filament/src/fg/fg/ResourceEntry.cpp).

The repository sources contain the FrameGraph class declaration with the
inline template bodies of Builder::read, Builder::write, addPass, isValid,
getResource and getResourceSlot; the out-of-line bodies (readInternal,
writeInternal, compile, execute, DependencyGraph::cull, forwardSubResource)
are declared but their translation unit is not among the sources, so those
are modelled from the specification (spec.md); each such definition carries
a doc comment starting with
  Modelled from the spec.
Machine integers (uint16_t indices/versions) are modelled as Nat: the claims
under study are about ordering and equality of versions, and the spec states
versions strictly increase.
-/

namespace fg2

/-- Bounds-checked list lookup, mirroring std::vector indexing guarded by the
bounds asserts in FrameGraph::getResourceSlot / getResource
(src/filament/src/fg2/FrameGraph.h lines 305-320): out of bounds gives none. -/
def listGet? {α : Type} : List α → Nat → Option α
  | [], _ => none
  | a :: _, 0 => some a
  | _ :: t, n + 1 => listGet? t n

/-- In-place update of one vector element (std::vector element assignment). -/
def listSet {α : Type} : List α → Nat → α → List α
  | [], _, _ => []
  | _ :: t, 0, b => b :: t
  | a :: t, n + 1, b => a :: listSet t n b

/-- FrameGraphHandle: opaque identifier, index into the resource-slot table plus
a version (fg2/FrameGraphId.h; spec section 3). -/
structure FrameGraphHandle where
  index : Nat
  version : Nat
  deriving DecidableEq, Repr

/-- FrameGraph::ResourceSlot (FrameGraph.h lines 294-297): rid indexes the
VirtualResource table, nid the ResourceNode table. -/
structure ResourceSlot where
  rid : Nat
  nid : Nat
  deriving DecidableEq, Repr

/-- VirtualResource: name/imported flag as stored by ResourceEntryBase
(fg/fg/ResourceEntry.cpp lines 26-28), plus the version counter and accumulated
usage flags of spec section 3. usage is a bitmask accumulated with bitwise or. -/
structure VirtualResource where
  name : String
  imported : Bool
  version : Nat
  usage : Nat
  deriving DecidableEq, Repr

/-- ResourceNode: graph vertex wrapping one version of a virtual resource
(spec section 3); rid names the underlying VirtualResource. -/
structure ResourceNode where
  rid : Nat
  version : Nat
  deriving DecidableEq, Repr

/-- PassNode: one declared pass; sideEffect records Builder::sideEffect
(FrameGraph.h lines 149-152, spec section 4.4). -/
structure PassNode where
  name : String
  sideEffect : Bool
  deriving DecidableEq, Repr

/-- A read edge: resource node is read by pass (spec section 3). -/
structure ReadEdge where
  node : Nat
  pass : Nat
  deriving DecidableEq, Repr

/-- A write edge: pass produces the (new) resource node (spec section 3). -/
structure WriteEdge where
  pass : Nat
  node : Nat
  deriving DecidableEq, Repr

/-- The FrameGraph state: the four vectors of FrameGraph.h lines 345-348 plus
the dependency edges held by DependencyGraph. -/
structure FrameGraph where
  slots : List ResourceSlot
  resources : List VirtualResource
  resourceNodes : List ResourceNode
  passNodes : List PassNode
  readEdges : List ReadEdge
  writeEdges : List WriteEdge
  deriving DecidableEq, Repr

/-- A FrameGraph with no declarations yet (state after construction/reset). -/
def emptyFG : FrameGraph := ⟨[], [], [], [], [], []⟩

/-- FrameGraph::getResourceSlot (FrameGraph.h lines 305-308). -/
def getResourceSlot (fg : FrameGraph) (h : FrameGraphHandle) : Option ResourceSlot :=
  listGet? fg.slots h.index

/-- FrameGraph::getResource (FrameGraph.h lines 310-314): the slot indirection
from handle index to current VirtualResource. -/
def getResource (fg : FrameGraph) (h : FrameGraphHandle) : Option VirtualResource :=
  match getResourceSlot fg h with
  | none => none
  | some slot => listGet? fg.resources slot.rid

/-- FrameGraph::isValid (FrameGraph.h lines 330-332):
handle.version == getResource(handle)->version. -/
def isValid (fg : FrameGraph) (h : FrameGraphHandle) : Bool :=
  match getResource fg h with
  | none => false
  | some r => h.version == r.version

/-- Result of a Builder operation: the updated graph, the returned handle, and
whether the operation hit its precondition assertion (spec section 7: using an
invalid handle is a fatal, assertion-class precondition violation). -/
structure BuilderResult where
  fg : FrameGraph
  handle : FrameGraphHandle
  assertionFailed : Bool
  deriving DecidableEq, Repr

/-- Modelled from the spec (FrameGraph::addPassInternal body is not among the
sources): appends a PassNode; passes are created in declaration order
(spec section 4.1). -/
def addPassInternal (fg : FrameGraph) (name : String) : FrameGraph :=
  { fg with passNodes := fg.passNodes ++ [⟨name, false⟩] }

/-- Builder::sideEffect (FrameGraph.h lines 149-152; body modelled from the
spec section 4.4): marks the current (most recently declared) pass as a leaf. -/
def sideEffect (fg : FrameGraph) : FrameGraph :=
  match fg.passNodes.length with
  | 0 => fg
  | n + 1 =>
    match listGet? fg.passNodes n with
    | none => fg
    | some pn => { fg with passNodes := listSet fg.passNodes n { pn with sideEffect := true } }

/-- Modelled from the spec (Builder::create / FrameGraph::addResourceInternal body
is not among the sources, spec section 4.4): allocates a VirtualResource at
version 0 with reference count starting at 0, its initial ResourceNode, and a
slot; returns the initial handle. -/
def create (fg : FrameGraph) (name : String) : FrameGraph × FrameGraphHandle :=
  let rid := fg.resources.length
  let nid := fg.resourceNodes.length
  let idx := fg.slots.length
  ({ fg with
      resources := fg.resources ++ [⟨name, false, 0, 0⟩],
      resourceNodes := fg.resourceNodes ++ [⟨rid, 0⟩],
      slots := fg.slots ++ [⟨rid, nid⟩] },
    ⟨idx, 0⟩)

/-- Modelled from the spec (FrameGraph::import body is not among the sources,
FrameGraph.h lines 257-269): like create but the resource is flagged imported,
so its lifetime is never managed by the frame graph. -/
def importResource (fg : FrameGraph) (name : String) : FrameGraph × FrameGraphHandle :=
  let rid := fg.resources.length
  let nid := fg.resourceNodes.length
  let idx := fg.slots.length
  ({ fg with
      resources := fg.resources ++ [⟨name, true, 0, 0⟩],
      resourceNodes := fg.resourceNodes ++ [⟨rid, 0⟩],
      slots := fg.slots ++ [⟨rid, nid⟩] },
    ⟨idx, 0⟩)

/-- Builder::read (FrameGraph.h lines 379-390). The readInternal body is not
among the sources; modelled from the spec sections 4.4 and 7: an invalid handle
is a fatal precondition violation (assertionFailed) and the operation returns
the invalid handle without touching the graph; a valid handle adds a read edge
from the resource's current node to the current pass and merges usage into the
accumulated usage flags (Resource::connect, spec section 4.2); reads do not
version, the input handle is returned unchanged. -/
def read (fg : FrameGraph) (h : FrameGraphHandle) (usage : Nat) : BuilderResult :=
  if fg.passNodes.isEmpty then ⟨fg, h, true⟩ else
  match listGet? fg.slots h.index with
  | none => ⟨fg, h, true⟩
  | some slot =>
    match listGet? fg.resources slot.rid with
    | none => ⟨fg, h, true⟩
    | some r =>
      if h.version == r.version then
        ⟨{ fg with
            resources := listSet fg.resources slot.rid { r with usage := Nat.lor r.usage usage },
            readEdges := fg.readEdges ++ [⟨slot.nid, fg.passNodes.length - 1⟩] },
          h, false⟩
      else ⟨fg, h, true⟩

/-- Builder::write (FrameGraph.h lines 392-403). The writeInternal body is not
among the sources; modelled from the spec sections 4.4 and 7: an invalid handle
is a fatal precondition violation and the operation returns the invalid handle
without touching the graph; a valid handle creates a new ResourceNode for the
same resource at version + 1, redirects the slot's current node to it, adds a
write edge from the current pass to the new node, merges usage
(Resource::connect, spec section 4.2), and returns the new handle. -/
def write (fg : FrameGraph) (h : FrameGraphHandle) (usage : Nat) : BuilderResult :=
  if fg.passNodes.isEmpty then ⟨fg, h, true⟩ else
  match listGet? fg.slots h.index with
  | none => ⟨fg, h, true⟩
  | some slot =>
    match listGet? fg.resources slot.rid with
    | none => ⟨fg, h, true⟩
    | some r =>
      if h.version == r.version then
        let newNodeIdx := fg.resourceNodes.length
        ⟨{ fg with
            resources := listSet fg.resources slot.rid
              { r with version := r.version + 1, usage := Nat.lor r.usage usage },
            resourceNodes := fg.resourceNodes ++ [⟨slot.rid, r.version + 1⟩],
            slots := listSet fg.slots h.index { slot with nid := newNodeIdx },
            writeEdges := fg.writeEdges ++ [⟨fg.passNodes.length - 1, newNodeIdx⟩] },
          ⟨h.index, r.version + 1⟩, false⟩
      else ⟨fg, h, true⟩

/-- FrameGraph::forwardSubResource (FrameGraph.h lines 234-247). The body is not
among the sources; modelled from the spec section 4.2: requires both handles
valid; creates a new version of the forwarded subresource (similar to a write:
version + 1, no pass edge), merges the replaced resource's accumulated write
history (usage) into it, and redirects the replaced handle's slot to the
forwarded resource so the two logical names converge. -/
def forwardSubResource (fg : FrameGraph) (sub replaced : FrameGraphHandle) : BuilderResult :=
  match listGet? fg.slots sub.index with
  | none => ⟨fg, sub, true⟩
  | some slotS =>
    match listGet? fg.slots replaced.index with
    | none => ⟨fg, sub, true⟩
    | some slotR =>
      match listGet? fg.resources slotS.rid with
      | none => ⟨fg, sub, true⟩
      | some rS =>
        match listGet? fg.resources slotR.rid with
        | none => ⟨fg, sub, true⟩
        | some rR =>
          if sub.version == rS.version && replaced.version == rR.version then
            let newNodeIdx := fg.resourceNodes.length
            ⟨{ fg with
                resources := listSet fg.resources slotS.rid
                  { rS with version := rS.version + 1, usage := Nat.lor rS.usage rR.usage },
                resourceNodes := fg.resourceNodes ++ [⟨slotS.rid, rS.version + 1⟩],
                slots := listSet (listSet fg.slots sub.index { slotS with nid := newNodeIdx })
                  replaced.index ⟨slotS.rid, newNodeIdx⟩ },
              ⟨sub.index, rS.version + 1⟩, false⟩
          else ⟨fg, sub, true⟩

/-- FrameGraph::addPass capture-size gate (FrameGraph.h line 353):
static_assert(sizeof(Execute) < 1024). True iff the execute closure's captured
state is accepted. -/
def addPassCaptureOk (executeSize : Nat) : Bool :=
  decide (executeSize < 1024)

/-- A node of the DependencyGraph: either a pass (inl, index into passNodes) or
a resource node (inr, index into resourceNodes). Spec section 4.1: the generic
graph is over both kinds of nodes. -/
def GNode : Type := Nat ⊕ Nat

instance : DecidableEq GNode := instDecidableEqSum

/-- Whether a graph node carries the side-effect mark (spec section 4.1: only
passes marked by Builder::sideEffect do). -/
def sideEffectB (fg : FrameGraph) : GNode → Bool
  | Sum.inl p =>
    match listGet? fg.passNodes p with
    | some pn => pn.sideEffect
    | none => false
  | Sum.inr _ => false

/-- Modelled from the spec section 4.1: the dependency relation used by cull.
A pass depends on every resource node it reads; a resource node depends on the
pass a write edge to it originates from. -/
def dependsB (fg : FrameGraph) : GNode → GNode → Bool
  | Sum.inl q, Sum.inr v => fg.readEdges.any (fun e => e.node == v && e.pass == q)
  | Sum.inr v, Sum.inl p => fg.writeEdges.any (fun e => e.pass == p && e.node == v)
  | _, _ => false

/-- All graph nodes, passes then resource nodes. -/
def allGNodes (fg : FrameGraph) : List GNode :=
  (List.range fg.passNodes.length).map Sum.inl ++
    (List.range fg.resourceNodes.length).map Sum.inr

def gnodeCount (fg : FrameGraph) : Nat :=
  fg.passNodes.length + fg.resourceNodes.length

/-- One step of the backward reference-count propagation of
DependencyGraph::cull (modelled from the spec section 4.1): a node is reached
if it is side-effecting or some already-reached node depends on it. -/
def liveStep (fg : FrameGraph) (s : GNode → Bool) : GNode → Bool :=
  fun n => sideEffectB fg n || (allGNodes fg).any (fun m => s m && dependsB fg m n)

/-- The propagation iterated k times from the empty set. -/
def liveIter (fg : FrameGraph) (k : Nat) : GNode → Bool :=
  (liveStep fg)^[k] (fun _ => false)

/-- Modelled from the spec section 4.1: a node survives culling (reference
count > 0 at the fixpoint) iff the bounded iteration reaches it. -/
def liveB (fg : FrameGraph) (n : GNode) : Bool :=
  liveIter fg (gnodeCount fg) n

/-- The nodes that must survive culling, as an inductive reachability
predicate: side-effecting nodes, and dependencies of live nodes
(spec section 4.1). -/
inductive LiveInd (fg : FrameGraph) : GNode → Prop
  | side (n : GNode) : sideEffectB fg n = true → LiveInd fg n
  | dep (m n : GNode) : LiveInd fg m → dependsB fg m n = true → LiveInd fg n

/-- The reference count a node ends cull with (modelled from the spec
section 4.1): one initial count for the side-effect mark plus one per live
node depending on it. -/
def refCountAfterCull (fg : FrameGraph) (n : GNode) : Nat :=
  (if sideEffectB fg n then 1 else 0) +
    ((allGNodes fg).filter (fun m => liveB fg m && dependsB fg m n)).length

/-- Modelled from the spec sections 4.1 and 4.3: execute() walks live passes in
declaration order, skipping culled ones; declaration order is the topological
order used. -/
def executeSchedule (fg : FrameGraph) : List Nat :=
  (List.range fg.passNodes.length).filter (fun p => liveB fg (Sum.inl p))

/-- The sequence of states each scheduled pass observes when the closures are
run in schedule order over a store (spec section 4.3: execute invokes each live
pass's closure in order, single threaded). -/
def observations {σ : Type} (step : Nat → σ → σ) : σ → List Nat → List σ
  | _, [] => []
  | s, p :: ps => s :: observations step (step p s) ps

/-- Pass p1's closure is invoked before pass p2's in the schedule. -/
def execBefore (sched : List Nat) (p1 p2 : Nat) : Prop :=
  ∃ i j, i < j ∧ listGet? sched i = some p1 ∧ listGet? sched j = some p2

/-- Removing a pass from the graph: its read and write edges disappear; the
node lists are left in place so indices are stable. -/
def removePassEdges (fg : FrameGraph) (p : Nat) : FrameGraph :=
  { fg with
      readEdges := fg.readEdges.filter (fun e => ! (e.pass == p)),
      writeEdges := fg.writeEdges.filter (fun e => ! (e.pass == p)) }

/-- An event on the external ResourceAllocatorInterface (spec section 6). -/
inductive AllocEvent : Type
  | allocate (rid : Nat)
  | destroy (rid : Nat)
  deriving DecidableEq, Repr

/-- Occurrences of one allocator event in a trace. -/
def countEvent (a : AllocEvent) : List AllocEvent → Nat
  | [] => 0
  | e :: t => (if e = a then 1 else 0) + countEvent a t

/-- Whether resource node v belongs to resource rid. -/
def nodeBelongs (fg : FrameGraph) (v rid : Nat) : Bool :=
  match listGet? fg.resourceNodes v with
  | some nd => nd.rid == rid
  | none => false

/-- The live resource nodes of resource rid, in declaration order. -/
def liveNodesOf (fg : FrameGraph) (rid : Nat) : List Nat :=
  (List.range fg.resourceNodes.length).filter
    (fun v => nodeBelongs fg v rid && liveB fg (Sum.inr v))

/-- First live use of a resource (spec section 6: allocate at first live use). -/
def firstLiveNode (fg : FrameGraph) (rid : Nat) : Option Nat :=
  (liveNodesOf fg rid).head?

/-- Last live use of a resource (spec section 6: destroy after last live use). -/
def lastLiveNode (fg : FrameGraph) (rid : Nat) : Option Nat :=
  (liveNodesOf fg rid).reverse.head?

/-- Whether a resource index is imported (out-of-range treated as imported:
never allocated by the core). -/
def importedB (fg : FrameGraph) (rid : Nat) : Bool :=
  match listGet? fg.resources rid with
  | some r => r.imported
  | none => true

/-- Modelled from the spec sections 4.3 and 6: the allocator events the
compile/execute walk emits at resource node v: nothing for culled nodes or
imported resources; allocate at the resource's first live node, destroy at its
last live node. -/
def eventsAt (fg : FrameGraph) (v : Nat) : List AllocEvent :=
  match listGet? fg.resourceNodes v with
  | none => []
  | some nd =>
    if importedB fg nd.rid then [] else
    if liveB fg (Sum.inr v) then
      (if firstLiveNode fg nd.rid = some v then [AllocEvent.allocate nd.rid] else []) ++
        (if lastLiveNode fg nd.rid = some v then [AllocEvent.destroy nd.rid] else [])
    else []

/-- Modelled from the spec section 4.3: the full allocator trace of one frame:
compile + execute walk the resource nodes in declaration order. -/
def frameTrace (fg : FrameGraph) : List AllocEvent :=
  ((List.range fg.resourceNodes.length).map (eventsAt fg)).flatten

/-- The graphs reachable through the declaration API (spec section 4.4 and
FrameGraph.h public interface): exactly the states an actual frame can be in
at compile time. -/
inductive Built : FrameGraph → Prop
  | mkEmpty : Built emptyFG
  | mkPass (fg : FrameGraph) (name : String) : Built fg → Built (addPassInternal fg name)
  | mkSide (fg : FrameGraph) : Built fg → Built (sideEffect fg)
  | mkCreate (fg : FrameGraph) (name : String) : Built fg → Built (create fg name).1
  | mkImport (fg : FrameGraph) (name : String) : Built fg → Built (importResource fg name).1
  | mkRead (fg : FrameGraph) (h : FrameGraphHandle) (u : Nat) :
      Built fg → Built (read fg h u).fg
  | mkWrite (fg : FrameGraph) (h : FrameGraphHandle) (u : Nat) :
      Built fg → Built (write fg h u).fg
  | mkForward (fg : FrameGraph) (a b : FrameGraphHandle) :
      Built fg → Built (forwardSubResource fg a b).fg

/-- Structural well-formedness maintained by the declaration API: edges point
at existing passes and nodes, slots point at existing nodes, and a write edge
to a node read by some pass comes from a pass declared no later than the
reader (spec section 4.1: edges never point forward). -/
structure Inv (fg : FrameGraph) : Prop where
  wpass : ∀ w ∈ fg.writeEdges, w.pass < fg.passNodes.length
  rpass : ∀ r ∈ fg.readEdges, r.pass < fg.passNodes.length
  rnode : ∀ r ∈ fg.readEdges, r.node < fg.resourceNodes.length
  snode : ∀ s ∈ fg.slots, s.nid < fg.resourceNodes.length
  order : ∀ w ∈ fg.writeEdges, ∀ r ∈ fg.readEdges, w.node = r.node → w.pass ≤ r.pass

/-! Concrete graphs used to instantiate the theorems below. -/

/-- One resource "a" (slot 0, version 0) and one declared pass "p0". -/
def fgSimple : FrameGraph := addPassInternal (create emptyFG "a").1 "p0"

/-- Resource "a" created then written once by pass "p", which has no side
effect: nothing in this graph is side-effecting. -/
def fgNoSide : FrameGraph := (write (addPassInternal (create emptyFG "a").1 "p") ⟨0, 0⟩ 0).fg

/-- Pass p0 writes resource "r" (producing version 1), pass p1 reads that
version and is marked side-effecting. -/
def fgChain : FrameGraph :=
  sideEffect (read (addPassInternal (write (addPassInternal (create emptyFG "r").1 "p0")
    ⟨0, 0⟩ 0).fg "p1") ⟨0, 1⟩ 0).fg

/-- Two fresh subresources "a" and "b"; "b" is then written once by pass "p",
so handle ⟨1,1⟩ is current for "b" and "a" is still at version 0. -/
def fgFwdCounter : FrameGraph :=
  (write (addPassInternal (create (create emptyFG "a").1 "b").1 "p") ⟨1, 0⟩ 0).fg

/-- Two fresh subresources "a" (slot 0) and "b" (slot 1), both at version 0. -/
def fgFwdFresh : FrameGraph := (create (create emptyFG "a").1 "b").1

/-- Imported resource "imp" (slot 0) and created resource "mem" (slot 1);
pass p0 writes "mem" (version 1), pass p1 reads that version, reads "imp",
and is side-effecting. -/
def fgAllocW : FrameGraph :=
  sideEffect (read (read (addPassInternal (write (addPassInternal
    (create (importResource emptyFG "imp").1 "mem").1 "p0") ⟨1, 0⟩ 0).fg "p1")
    ⟨1, 1⟩ 0).fg ⟨0, 0⟩ 0).fg

/-! Helper lemmas about the list primitives. -/

theorem listGet?_lt {α : Type} {l : List α} {n : Nat} {a : α}
    (h : listGet? l n = some a) : n < l.length := by
  induction l generalizing n with
  | nil => simp [listGet?] at h
  | cons b t ih =>
    cases n with
    | zero => simp
    | succ m =>
      simp only [listGet?] at h
      have := ih h
      simp only [List.length]
      omega

theorem listGet?_mem {α : Type} {l : List α} {n : Nat} {a : α}
    (h : listGet? l n = some a) : a ∈ l := by
  induction l generalizing n with
  | nil => simp [listGet?] at h
  | cons b t ih =>
    cases n with
    | zero =>
      simp only [listGet?] at h
      rw [← Option.some.inj h]
      exact List.mem_cons_self b t
    | succ m =>
      simp only [listGet?] at h
      exact List.mem_cons_of_mem _ (ih h)

theorem length_listSet {α : Type} (l : List α) (n : Nat) (b : α) :
    (listSet l n b).length = l.length := by
  induction l generalizing n with
  | nil => simp [listSet]
  | cons a t ih =>
    cases n with
    | zero => simp [listSet]
    | succ m => simp [listSet, ih]

theorem listGet?_listSet_self {α : Type} {l : List α} {n : Nat} (b : α)
    (h : n < l.length) : listGet? (listSet l n b) n = some b := by
  induction l generalizing n with
  | nil => simp at h
  | cons a t ih =>
    cases n with
    | zero => simp [listSet, listGet?]
    | succ m =>
      simp only [listSet, listGet?]
      exact ih (by simpa using Nat.lt_of_succ_lt_succ h)

theorem listGet?_listSet_ne {α : Type} (l : List α) {m n : Nat} (b : α)
    (h : m ≠ n) : listGet? (listSet l n b) m = listGet? l m := by
  induction l generalizing m n with
  | nil => simp [listSet]
  | cons a t ih =>
    cases n with
    | zero =>
      cases m with
      | zero => exact absurd rfl h
      | succ k => simp [listSet, listGet?]
    | succ n' =>
      cases m with
      | zero => simp [listSet, listGet?]
      | succ k =>
        simp only [listSet, listGet?]
        exact ih (fun e => h (by omega))

theorem mem_listSet {α : Type} {l : List α} {n : Nat} {b x : α}
    (h : x ∈ listSet l n b) : x ∈ l ∨ x = b := by
  induction l generalizing n with
  | nil => simp [listSet] at h
  | cons a t ih =>
    cases n with
    | zero =>
      rcases List.mem_cons.mp h with h' | h'
      · right; exact h'
      · left; exact List.mem_cons_of_mem _ h'
    | succ m =>
      rcases List.mem_cons.mp h with h' | h'
      · left; simp [h']
      · rcases ih h' with h'' | h''
        · left; exact List.mem_cons_of_mem _ h''
        · right; exact h''

/-! Claim theorems: handle versioning and validity. -/

/-- C1: for every valid handle h, Builder::write returns a handle with a
strictly greater version and the input handle fails isValid afterwards
(spec: versioning monotonicity; FrameGraph.h lines 392-403 and 330-332). -/
theorem write_bumps_version_and_stales_input (fg : FrameGraph) (h : FrameGraphHandle)
    (u : Nat) (hp : fg.passNodes.isEmpty = false) (hv : isValid fg h = true) :
    h.version < (write fg h u).handle.version ∧ isValid (write fg h u).fg h = false := by
  rcases hfg : listGet? fg.slots h.index with _ | slot
  · exfalso
    simp [isValid, getResource, getResourceSlot, hfg] at hv
  rcases hres : listGet? fg.resources slot.rid with _ | r
  · exfalso
    simp [isValid, getResource, getResourceSlot, hfg, hres] at hv
  have hveq : h.version = r.version := by
    simpa [isValid, getResource, getResourceSlot, hfg, hres] using hv
  have hidx : h.index < fg.slots.length := listGet?_lt hfg
  have hrid : slot.rid < fg.resources.length := listGet?_lt hres
  constructor
  · simp [write, hp, hfg, hres, hveq]
  · simp only [write, hp, Bool.false_eq_true, if_false, hfg, hres, hveq, beq_self_eq_true,
      if_true, isValid, getResource, getResourceSlot]
    rw [listGet?_listSet_self _ hidx]
    simp only
    rw [listGet?_listSet_self _ hrid]
    simp only
    rw [beq_eq_false_iff_ne]
    omega

/-- C1 witness: in fgSimple, writing the valid handle ⟨0,0⟩ yields a handle of
greater version and stales the input. -/
theorem write_bumps_version_witness :
    fgSimple.passNodes.isEmpty = false ∧ isValid fgSimple ⟨0, 0⟩ = true ∧
      ((0 : Nat) < (write fgSimple ⟨0, 0⟩ 0).handle.version ∧
        isValid (write fgSimple ⟨0, 0⟩ 0).fg ⟨0, 0⟩ = false) :=
  ⟨by decide, by decide,
    write_bumps_version_and_stales_input fgSimple ⟨0, 0⟩ 0 (by decide) (by decide)⟩

/-- C2: isValid(h) is true exactly when h's version equals the current version
stored in the underlying VirtualResource (FrameGraph.h lines 330-332). -/
theorem isValid_iff_version_eq (fg : FrameGraph) (h : FrameGraphHandle)
    (r : VirtualResource) (hr : getResource fg h = some r) :
    isValid fg h = true ↔ h.version = r.version := by
  simp [isValid, hr]

/-- C2 witness: in fgSimple, handle ⟨0,0⟩ resolves to resource "a" and the
validity check is equivalent to the version comparison. -/
theorem isValid_iff_version_eq_witness :
    getResource fgSimple ⟨0, 0⟩ = some ⟨"a", false, 0, 0⟩ ∧
      (isValid fgSimple ⟨0, 0⟩ = true ↔ (0 : Nat) = (0 : Nat)) :=
  ⟨by decide, isValid_iff_version_eq fgSimple ⟨0, 0⟩ ⟨"a", false, 0, 0⟩ (by decide)⟩

/-- C5: reading or writing through a handle that fails the validity check is a
fatal precondition violation: the assertion-class failure fires
(spec section 7; FrameGraph.h lines 379-403). -/
theorem invalid_handle_assertion (fg : FrameGraph) (h : FrameGraphHandle) (u : Nat)
    (hv : isValid fg h = false) :
    (read fg h u).assertionFailed = true ∧ (write fg h u).assertionFailed = true := by
  cases hpe : fg.passNodes.isEmpty with
  | true => constructor <;> simp [read, write, hpe]
  | false =>
    rcases hfg : listGet? fg.slots h.index with _ | slot
    · constructor <;> simp [read, write, hpe, hfg]
    rcases hres : listGet? fg.resources slot.rid with _ | r
    · constructor <;> simp [read, write, hpe, hfg, hres]
    have hne : (h.version == r.version) = false := by
      simpa [isValid, getResource, getResourceSlot, hfg, hres] using hv
    constructor <;> simp [read, write, hpe, hfg, hres, hne]

/-- C5 witness: in fgSimple the stale handle ⟨0,5⟩ is invalid, and both read
and write hit the assertion. -/
theorem invalid_handle_assertion_witness :
    isValid fgSimple ⟨0, 5⟩ = false ∧
      ((read fgSimple ⟨0, 5⟩ 0).assertionFailed = true ∧
        (write fgSimple ⟨0, 5⟩ 0).assertionFailed = true) :=
  ⟨by decide, invalid_handle_assertion fgSimple ⟨0, 5⟩ 0 (by decide)⟩

/-- C10: a read or write through an invalid handle leaves the graph (edges,
versions, accumulated usage) completely unchanged, skips the connect step, and
returns the invalid handle (FrameGraph.h lines 384-389 and 397-402: connect
only runs when the looked-up handle isValid). -/
theorem invalid_declaration_no_effect (fg : FrameGraph) (h : FrameGraphHandle) (u : Nat)
    (hv : isValid fg h = false) :
    read fg h u = ⟨fg, h, true⟩ ∧ write fg h u = ⟨fg, h, true⟩ := by
  cases hpe : fg.passNodes.isEmpty with
  | true => constructor <;> simp [read, write, hpe]
  | false =>
    rcases hfg : listGet? fg.slots h.index with _ | slot
    · constructor <;> simp [read, write, hpe, hfg]
    rcases hres : listGet? fg.resources slot.rid with _ | r
    · constructor <;> simp [read, write, hpe, hfg, hres]
    have hne : (h.version == r.version) = false := by
      simpa [isValid, getResource, getResourceSlot, hfg, hres] using hv
    constructor <;> simp [read, write, hpe, hfg, hres, hne]

/-- C10 witness: in fgSimple the invalid handle ⟨0,5⟩ makes read and write
no-ops that return the invalid input handle. -/
theorem invalid_declaration_no_effect_witness :
    isValid fgSimple ⟨0, 5⟩ = false ∧
      (read fgSimple ⟨0, 5⟩ 0 = ⟨fgSimple, ⟨0, 5⟩, true⟩ ∧
        write fgSimple ⟨0, 5⟩ 0 = ⟨fgSimple, ⟨0, 5⟩, true⟩) :=
  ⟨by decide, invalid_declaration_no_effect fgSimple ⟨0, 5⟩ 0 (by decide)⟩

/-- C7: for a valid handle, Builder::read returns the input handle itself (same
resource identity and same version: reads do not create a new version), the
resource's version is unchanged, and the handle is still valid afterwards
(FrameGraph.h lines 125-135 and 379-390; spec section 4.4). -/
theorem read_preserves_handle (fg : FrameGraph) (h : FrameGraphHandle) (u : Nat)
    (hp : fg.passNodes.isEmpty = false) (hv : isValid fg h = true) :
    (read fg h u).handle = h ∧
      Option.map VirtualResource.version (getResource (read fg h u).fg h) =
        Option.map VirtualResource.version (getResource fg h) ∧
      isValid (read fg h u).fg h = true := by
  rcases hfg : listGet? fg.slots h.index with _ | slot
  · exfalso
    simp [isValid, getResource, getResourceSlot, hfg] at hv
  rcases hres : listGet? fg.resources slot.rid with _ | r
  · exfalso
    simp [isValid, getResource, getResourceSlot, hfg, hres] at hv
  have hveq : h.version = r.version := by
    simpa [isValid, getResource, getResourceSlot, hfg, hres] using hv
  have hrid : slot.rid < fg.resources.length := listGet?_lt hres
  refine ⟨by simp [read, hp, hfg, hres, hveq], ?_, ?_⟩
  · simp only [read, hp, Bool.false_eq_true, if_false, hfg, hres, hveq, beq_self_eq_true,
      if_true, getResource, getResourceSlot]
    rw [listGet?_listSet_self _ hrid]
    simp [hres]
  · simp only [read, hp, Bool.false_eq_true, if_false, hfg, hres, hveq, beq_self_eq_true,
      if_true, isValid, getResource, getResourceSlot]
    rw [listGet?_listSet_self _ hrid]
    simp

/-- C7 witness: in fgSimple, reading the valid handle ⟨0,0⟩ returns it
unchanged and keeps it valid. -/
theorem read_preserves_handle_witness :
    fgSimple.passNodes.isEmpty = false ∧ isValid fgSimple ⟨0, 0⟩ = true ∧
      ((read fgSimple ⟨0, 0⟩ 0).handle = ⟨0, 0⟩ ∧
        Option.map VirtualResource.version (getResource (read fgSimple ⟨0, 0⟩ 0).fg ⟨0, 0⟩) =
          Option.map VirtualResource.version (getResource fgSimple ⟨0, 0⟩) ∧
        isValid (read fgSimple ⟨0, 0⟩ 0).fg ⟨0, 0⟩ = true) :=
  ⟨by decide, by decide, read_preserves_handle fgSimple ⟨0, 0⟩ 0 (by decide) (by decide)⟩

/-- C9: the addPass capture gate accepts an execute closure exactly when its
captured state occupies fewer than 1024 bytes
(FrameGraph.h line 353: static_assert(sizeof(Execute) < 1024)). -/
theorem addPass_capture_bound (n : Nat) : addPassCaptureOk n = true ↔ n < 1024 := by
  simp [addPassCaptureOk]

/-- C6 counterexample: in fgFwdCounter, handle ⟨1,1⟩ is the current, valid
handle of subresource "b"; after forwardSubResource(⟨0,0⟩ of "a", &⟨1,1⟩) the
call succeeds, yet the replaced handle ⟨1,1⟩ still passes the very next
validity check (its version 1 collides with the new version 1 of "a"), so it
is not forever invalid. -/
theorem forward_replaced_still_valid_counterexample :
    isValid fgFwdCounter ⟨0, 0⟩ = true ∧ isValid fgFwdCounter ⟨1, 1⟩ = true ∧
      (forwardSubResource fgFwdCounter ⟨0, 0⟩ ⟨1, 1⟩).assertionFailed = false ∧
      isValid (forwardSubResource fgFwdCounter ⟨0, 0⟩ ⟨1, 1⟩).fg ⟨1, 1⟩ = true := by
  decide

/-- C6 (amended): forwardSubResource(A, &B) returns a new version of A
(strictly greater, A.version + 1) whose accumulated usage merges in B's write
history; the replaced handle B fails the validity check afterwards provided
B's version differs from the new version of A (the unqualified claim fails
when B.version = A.version + 1, see the counterexample). -/
theorem forward_semantics_amended (fg : FrameGraph) (sub replaced : FrameGraphHandle)
    (slotS slotR : ResourceSlot) (rS rR : VirtualResource)
    (hS : listGet? fg.slots sub.index = some slotS)
    (hR : listGet? fg.slots replaced.index = some slotR)
    (hrS : listGet? fg.resources slotS.rid = some rS)
    (hrR : listGet? fg.resources slotR.rid = some rR)
    (hvS : sub.version = rS.version) (hvR : replaced.version = rR.version)
    (hidx : sub.index ≠ replaced.index) (hver : replaced.version ≠ rS.version + 1) :
    (forwardSubResource fg sub replaced).handle = ⟨sub.index, rS.version + 1⟩ ∧
      sub.version < (forwardSubResource fg sub replaced).handle.version ∧
      isValid (forwardSubResource fg sub replaced).fg replaced = false ∧
      getResource (forwardSubResource fg sub replaced).fg
          (forwardSubResource fg sub replaced).handle =
        some { rS with version := rS.version + 1, usage := Nat.lor rS.usage rR.usage } := by
  have hidxS : sub.index < fg.slots.length := listGet?_lt hS
  have hidxR : replaced.index < fg.slots.length := listGet?_lt hR
  have hridS : slotS.rid < fg.resources.length := listGet?_lt hrS
  have hfw : forwardSubResource fg sub replaced =
      ⟨{ fg with
          resources := listSet fg.resources slotS.rid
            { rS with version := rS.version + 1, usage := Nat.lor rS.usage rR.usage },
          resourceNodes := fg.resourceNodes ++ [⟨slotS.rid, rS.version + 1⟩],
          slots := listSet (listSet fg.slots sub.index
              { slotS with nid := fg.resourceNodes.length })
            replaced.index ⟨slotS.rid, fg.resourceNodes.length⟩ },
        ⟨sub.index, rS.version + 1⟩, false⟩ := by
    simp [forwardSubResource, hS, hR, hrS, hrR, hvS, hvR]
  refine ⟨by rw [hfw], by rw [hfw, hvS]; exact Nat.lt_succ_self _, ?_, ?_⟩
  · rw [hfw]
    simp only [isValid, getResource, getResourceSlot]
    rw [listGet?_listSet_self _ (by rw [length_listSet]; exact hidxR)]
    simp only
    rw [listGet?_listSet_self _ hridS]
    simp only
    rw [beq_eq_false_iff_ne]
    exact hver
  · rw [hfw]
    simp only [getResource, getResourceSlot]
    rw [listGet?_listSet_ne _ _ hidx, listGet?_listSet_self _ hidxS]
    simp only
    rw [listGet?_listSet_self _ hridS]

/-- C6 amended witness: forwarding fresh "a" over fresh "b" in fgFwdFresh:
the returned handle is ⟨0,1⟩, the replaced handle ⟨1,0⟩ fails validity, and
the usage is merged. -/
theorem forward_semantics_amended_witness :
    listGet? fgFwdFresh.slots 0 = some ⟨0, 0⟩ ∧
      listGet? fgFwdFresh.slots 1 = some ⟨1, 1⟩ ∧
      listGet? fgFwdFresh.resources 0 = some ⟨"a", false, 0, 0⟩ ∧
      listGet? fgFwdFresh.resources 1 = some ⟨"b", false, 0, 0⟩ ∧
      ((forwardSubResource fgFwdFresh ⟨0, 0⟩ ⟨1, 0⟩).handle = ⟨0, 1⟩ ∧
        (0 : Nat) < (forwardSubResource fgFwdFresh ⟨0, 0⟩ ⟨1, 0⟩).handle.version ∧
        isValid (forwardSubResource fgFwdFresh ⟨0, 0⟩ ⟨1, 0⟩).fg ⟨1, 0⟩ = false ∧
        getResource (forwardSubResource fgFwdFresh ⟨0, 0⟩ ⟨1, 0⟩).fg
            (forwardSubResource fgFwdFresh ⟨0, 0⟩ ⟨1, 0⟩).handle =
          some ⟨"a", false, 1, 0⟩) :=
  ⟨by decide, by decide, by decide, by decide,
    forward_semantics_amended fgFwdFresh ⟨0, 0⟩ ⟨1, 0⟩ ⟨0, 0⟩ ⟨1, 1⟩
      ⟨"a", false, 0, 0⟩ ⟨"b", false, 0, 0⟩ (by decide) (by decide) (by decide) (by decide)
      (by decide) (by decide) (by decide) (by decide)⟩

/-! Liveness: the bounded cull iteration is sound for the reachability
predicate, and removing a culled pass leaves all liveness verdicts alike. -/

theorem any_congr' {α : Type} {l : List α} {p q : α → Bool}
    (h : ∀ a ∈ l, p a = q a) : l.any p = l.any q := by
  induction l with
  | nil => rfl
  | cons a t ih =>
    simp only [List.any_cons]
    rw [h a (List.mem_cons_self a t), ih (fun b hb => h b (List.mem_cons_of_mem a hb))]

theorem filter_any_eq {α : Type} (l : List α) (keep p : α → Bool)
    (h : ∀ e ∈ l, p e = true → keep e = true) : (l.filter keep).any p = l.any p := by
  induction l with
  | nil => rfl
  | cons a t ih =>
    have ih' := ih (fun e he hp => h e (List.mem_cons_of_mem a he) hp)
    cases hk : keep a with
    | true =>
      rw [List.filter_cons_of_pos hk]
      simp only [List.any_cons]
      rw [ih']
    | false =>
      have hpa : p a = false := by
        cases hpa : p a with
        | false => rfl
        | true => rw [h a (List.mem_cons_self a t) hpa] at hk; exact absurd hk (by simp)
      rw [List.filter_cons_of_neg (by simp [hk])]
      simp only [List.any_cons, hpa, Bool.false_or]
      exact ih'

theorem bool_and_left {a b : Bool} (h : (a && b) = true) : a = true :=
  ((Bool.and_eq_true a b).symm ▸ h : a = true ∧ b = true).1

theorem bool_and_right {a b : Bool} (h : (a && b) = true) : b = true :=
  ((Bool.and_eq_true a b).symm ▸ h : a = true ∧ b = true).2

theorem liveIter_sound (fg : FrameGraph) :
    ∀ k n, liveIter fg k n = true → LiveInd fg n := by
  intro k
  induction k with
  | zero =>
    intro n h
    simp [liveIter] at h
  | succ k ih =>
    intro n h
    rw [liveIter, Function.iterate_succ_apply'] at h
    simp only [liveStep] at h
    rcases (by simpa using h :
        sideEffectB fg n = true ∨ ∃ m ∈ allGNodes fg, (liveIter fg k m && dependsB fg m n) = true)
      with hside | ⟨m, _, hmb⟩
    · exact LiveInd.side n hside
    · have hS : liveIter fg k m = true := (bool_and_left hmb)
      have hd : dependsB fg m n = true := (bool_and_right hmb)
      exact LiveInd.dep m n (ih m hS) hd

theorem liveB_sound (fg : FrameGraph) (n : GNode) (h : liveB fg n = true) : LiveInd fg n :=
  liveIter_sound fg (gnodeCount fg) n h

theorem notLive_of_noSideEffect (fg : FrameGraph)
    (hs : ∀ n, sideEffectB fg n = false) : ∀ n, ¬ LiveInd fg n := by
  intro n hn
  induction hn with
  | side n h => rw [hs n] at h; exact absurd h (by simp)
  | dep m n hm hd ih => exact ih

theorem removePass_liveIter (fg : FrameGraph) (P : Nat)
    (hP : ¬ LiveInd fg (Sum.inl P)) :
    ∀ k n, liveIter (removePassEdges fg P) k n = liveIter fg k n := by
  intro k
  induction k with
  | zero => intro n; rfl
  | succ k ih =>
    intro n
    rw [liveIter, liveIter, Function.iterate_succ_apply', Function.iterate_succ_apply']
    have hfun : liveIter (removePassEdges fg P) k = liveIter fg k := funext ih
    show liveStep (removePassEdges fg P) (liveIter (removePassEdges fg P) k) n =
      liveStep fg (liveIter fg k) n
    rw [hfun]
    have hSP : liveIter fg k (Sum.inl P) = false := by
      cases hb : liveIter fg k (Sum.inl P) with
      | false => rfl
      | true => exact absurd (liveIter_sound fg k _ hb) hP
    show (sideEffectB fg n ||
        (allGNodes fg).any (fun m => liveIter fg k m && dependsB (removePassEdges fg P) m n)) =
      (sideEffectB fg n || (allGNodes fg).any (fun m => liveIter fg k m && dependsB fg m n))
    congr 1
    cases n with
    | inl q =>
      by_cases hq : q = P
      · subst hq
        have hrhs : (allGNodes fg).any (fun m => liveIter fg k m && dependsB fg m (Sum.inl q)) =
            false := by
          cases hb : (allGNodes fg).any (fun m => liveIter fg k m && dependsB fg m (Sum.inl q)) with
          | false => rfl
          | true =>
            obtain ⟨m, _, hmb⟩ := List.any_eq_true.mp hb
            exact absurd
              (LiveInd.dep m (Sum.inl q) (liveIter_sound fg k m (bool_and_left hmb))
                (bool_and_right hmb)) hP
        rw [hrhs]
        cases hb : (allGNodes fg).any
            (fun m => liveIter fg k m && dependsB (removePassEdges fg q) m (Sum.inl q)) with
        | false => rfl
        | true =>
          exfalso
          obtain ⟨m, _, hmb⟩ := List.any_eq_true.mp hb
          have hd : dependsB (removePassEdges fg q) m (Sum.inl q) = true := bool_and_right hmb
          cases m with
          | inl q' => exact absurd hd (by simp [dependsB])
          | inr v =>
            simp only [dependsB, removePassEdges] at hd
            obtain ⟨e, he, heb⟩ := List.any_eq_true.mp hd
            have hep : e.pass = q := by simpa using bool_and_left heb
            have hkeep := (List.mem_filter.mp he).2
            rw [hep] at hkeep
            simp at hkeep
      · apply any_congr'
        intro m _
        cases m with
        | inl q' => rfl
        | inr v =>
          have : dependsB (removePassEdges fg P) (Sum.inr v) (Sum.inl q) =
              dependsB fg (Sum.inr v) (Sum.inl q) := by
            simp only [dependsB, removePassEdges]
            apply filter_any_eq
            intro e _ hpe
            have : e.pass = q := by simpa using (bool_and_left hpe)
            simp [this, hq]
          rw [this]
    | inr v =>
      apply any_congr'
      intro m _
      cases m with
      | inr v' => rfl
      | inl q =>
        by_cases hq : q = P
        · subst hq
          rw [hSP]
          simp
        · have : dependsB (removePassEdges fg P) (Sum.inl q) (Sum.inr v) =
              dependsB fg (Sum.inl q) (Sum.inr v) := by
            simp only [dependsB, removePassEdges]
            apply filter_any_eq
            intro e _ hpe
            have : e.pass = q := by simpa using (bool_and_right hpe)
            simp [this, hq]
          rw [this]

theorem removePass_liveB (fg : FrameGraph) (P : Nat)
    (hP : ¬ LiveInd fg (Sum.inl P)) (n : GNode) :
    liveB (removePassEdges fg P) n = liveB fg n := by
  show liveIter (removePassEdges fg P) (gnodeCount (removePassEdges fg P)) n =
    liveIter fg (gnodeCount fg) n
  exact removePass_liveIter fg P hP (gnodeCount fg) n

/-- C3: a pass P declared without sideEffect() and with no chain of read/write
edges reaching a side-effecting node ends culling with reference count 0, its
execute closure is never invoked (it is not in the execution schedule), and
removing P (dropping all its edges) leaves the schedule — and hence every
state observed by every live pass during execute — unchanged
(spec section 4.1; FrameGraph.h lines 209-220 and 149-152). -/
theorem culling_correctness (fg : FrameGraph) (P : Nat) (pn : PassNode)
    (hP : listGet? fg.passNodes P = some pn) (hse : pn.sideEffect = false)
    (hchain : ¬ LiveInd fg (Sum.inl P)) :
    refCountAfterCull fg (Sum.inl P) = 0 ∧
      P ∉ executeSchedule fg ∧
      executeSchedule (removePassEdges fg P) = executeSchedule fg ∧
      ∀ (σ : Type) (step : Nat → σ → σ) (init : σ),
        observations step init (executeSchedule (removePassEdges fg P)) =
          observations step init (executeSchedule fg) := by
  have hsB : sideEffectB fg (Sum.inl P) = false := by
    cases hb : sideEffectB fg (Sum.inl P) with
    | false => rfl
    | true => exact absurd (LiveInd.side _ hb) hchain
  have hsched : executeSchedule (removePassEdges fg P) = executeSchedule fg := by
    show (List.range (removePassEdges fg P).passNodes.length).filter
        (fun p => liveB (removePassEdges fg P) (Sum.inl p)) =
      (List.range fg.passNodes.length).filter (fun p => liveB fg (Sum.inl p))
    exact List.filter_congr (fun p _ => removePass_liveB fg P hchain (Sum.inl p))
  refine ⟨?_, ?_, hsched, ?_⟩
  · have hfil : (allGNodes fg).filter
        (fun m => liveB fg m && dependsB fg m (Sum.inl P)) = [] := by
      rw [List.filter_eq_nil_iff]
      intro m _ hmb
      exact absurd
        (LiveInd.dep m (Sum.inl P) (liveB_sound fg m (bool_and_left hmb))
          (bool_and_right hmb)) hchain
    simp [refCountAfterCull, hsB, hfil]
  · intro hmem
    have hlive := (List.mem_filter.mp hmem).2
    exact absurd (liveB_sound fg (Sum.inl P) hlive) hchain
  · intro σ step init
    rw [hsched]

/-- C3 witness: in fgNoSide, pass 0 has no side effect and no chain to any
side-effecting node; it is culled, unscheduled, and removing it changes no
observation. -/
theorem culling_correctness_witness :
    listGet? fgNoSide.passNodes 0 = some ⟨"p", false⟩ ∧
      (refCountAfterCull fgNoSide (Sum.inl 0) = 0 ∧
        0 ∉ executeSchedule fgNoSide ∧
        executeSchedule (removePassEdges fgNoSide 0) = executeSchedule fgNoSide ∧
        ∀ (σ : Type) (step : Nat → σ → σ) (init : σ),
          observations step init (executeSchedule (removePassEdges fgNoSide 0)) =
            observations step init (executeSchedule fgNoSide)) :=
  ⟨by decide,
    culling_correctness fgNoSide 0 ⟨"p", false⟩ (by decide) (by decide)
      (notLive_of_noSideEffect fgNoSide
        (by
          intro n
          rcases n with p | v
          · rcases p with _ | p
            · rfl
            · rfl
          · rfl)
        (Sum.inl 0))⟩

/-! Structural invariants of API-built graphs (edges never point forward). -/

theorem length_pos_of_not_isEmpty {α : Type} {l : List α} (h : l.isEmpty = false) :
    0 < l.length := by
  cases l with
  | nil => simp [List.isEmpty] at h
  | cons a t => simp

theorem inv_empty : Inv emptyFG := by
  refine ⟨?_, ?_, ?_, ?_, ?_⟩ <;> intro x hx <;> simp [emptyFG] at hx

theorem inv_addPass (fg : FrameGraph) (name : String) (hi : Inv fg) :
    Inv (addPassInternal fg name) := by
  refine ⟨?_, ?_, hi.rnode, hi.snode, hi.order⟩
  · intro w hw
    have := hi.wpass w hw
    simp only [addPassInternal, List.length_append]
    omega
  · intro e he
    have := hi.rpass e he
    simp only [addPassInternal, List.length_append]
    omega

theorem inv_sideEffect (fg : FrameGraph) (hi : Inv fg) : Inv (sideEffect fg) := by
  cases hn : fg.passNodes.length with
  | zero => simpa [sideEffect, hn] using hi
  | succ n =>
    rcases hg : listGet? fg.passNodes n with _ | pn
    · simpa [sideEffect, hn, hg] using hi
    have heq : sideEffect fg =
        { fg with passNodes := listSet fg.passNodes n { pn with sideEffect := true } } := by
      simp [sideEffect, hn, hg]
    rw [heq]
    refine ⟨?_, ?_, hi.rnode, hi.snode, hi.order⟩
    · intro w hw
      simp only [length_listSet]
      exact hi.wpass w hw
    · intro e he
      simp only [length_listSet]
      exact hi.rpass e he

theorem inv_create (fg : FrameGraph) (name : String) (hi : Inv fg) :
    Inv (create fg name).1 := by
  refine ⟨hi.wpass, hi.rpass, ?_, ?_, hi.order⟩
  · intro e he
    have := hi.rnode e he
    simp only [create, List.length_append]
    omega
  · intro s hs
    simp only [create] at hs
    rcases List.mem_append.mp hs with h' | h'
    · have := hi.snode s h'
      simp only [create, List.length_append]
      omega
    · have : s = ⟨fg.resources.length, fg.resourceNodes.length⟩ := by simpa using h'
      rw [this]
      simp only [create, List.length_append, List.length_cons, List.length_nil]
      omega

theorem inv_import (fg : FrameGraph) (name : String) (hi : Inv fg) :
    Inv (importResource fg name).1 := by
  refine ⟨hi.wpass, hi.rpass, ?_, ?_, hi.order⟩
  · intro e he
    have := hi.rnode e he
    simp only [importResource, List.length_append]
    omega
  · intro s hs
    simp only [importResource] at hs
    rcases List.mem_append.mp hs with h' | h'
    · have := hi.snode s h'
      simp only [importResource, List.length_append]
      omega
    · have : s = ⟨fg.resources.length, fg.resourceNodes.length⟩ := by simpa using h'
      rw [this]
      simp only [importResource, List.length_append, List.length_cons, List.length_nil]
      omega

theorem inv_read (fg : FrameGraph) (h : FrameGraphHandle) (u : Nat) (hi : Inv fg) :
    Inv (read fg h u).fg := by
  cases hpe : fg.passNodes.isEmpty with
  | true => simpa [read, hpe] using hi
  | false =>
    rcases hfg : listGet? fg.slots h.index with _ | slot
    · simpa [read, hpe, hfg] using hi
    rcases hres : listGet? fg.resources slot.rid with _ | r
    · simpa [read, hpe, hfg, hres] using hi
    cases hbe : (h.version == r.version) with
    | false => simpa [read, hpe, hfg, hres, hbe] using hi
    | true =>
      have hpos : 0 < fg.passNodes.length := length_pos_of_not_isEmpty hpe
      have heq : (read fg h u).fg = { fg with
          resources := listSet fg.resources slot.rid { r with usage := Nat.lor r.usage u },
          readEdges := fg.readEdges ++ [⟨slot.nid, fg.passNodes.length - 1⟩] } := by
        simp [read, hpe, hfg, hres, hbe]
      rw [heq]
      refine ⟨hi.wpass, ?_, ?_, hi.snode, ?_⟩
      · intro e he
        rcases List.mem_append.mp he with h' | h'
        · exact hi.rpass e h'
        · have : e = ⟨slot.nid, fg.passNodes.length - 1⟩ := by simpa using h'
          rw [this]
          show fg.passNodes.length - 1 < fg.passNodes.length
          omega
      · intro e he
        rcases List.mem_append.mp he with h' | h'
        · exact hi.rnode e h'
        · have : e = ⟨slot.nid, fg.passNodes.length - 1⟩ := by simpa using h'
          rw [this]
          exact hi.snode slot (listGet?_mem hfg)
      · intro w hw e he
        rcases List.mem_append.mp he with h' | h'
        · exact hi.order w hw e h'
        · have he' : e = ⟨slot.nid, fg.passNodes.length - 1⟩ := by simpa using h'
          intro _
          rw [he']
          show w.pass ≤ fg.passNodes.length - 1
          have := hi.wpass w hw
          omega

theorem inv_write (fg : FrameGraph) (h : FrameGraphHandle) (u : Nat) (hi : Inv fg) :
    Inv (write fg h u).fg := by
  cases hpe : fg.passNodes.isEmpty with
  | true => simpa [write, hpe] using hi
  | false =>
    rcases hfg : listGet? fg.slots h.index with _ | slot
    · simpa [write, hpe, hfg] using hi
    rcases hres : listGet? fg.resources slot.rid with _ | r
    · simpa [write, hpe, hfg, hres] using hi
    cases hbe : (h.version == r.version) with
    | false => simpa [write, hpe, hfg, hres, hbe] using hi
    | true =>
      have hpos : 0 < fg.passNodes.length := length_pos_of_not_isEmpty hpe
      have heq : (write fg h u).fg = { fg with
          resources := listSet fg.resources slot.rid
            { r with version := r.version + 1, usage := Nat.lor r.usage u },
          resourceNodes := fg.resourceNodes ++ [⟨slot.rid, r.version + 1⟩],
          slots := listSet fg.slots h.index { slot with nid := fg.resourceNodes.length },
          writeEdges := fg.writeEdges ++
            [⟨fg.passNodes.length - 1, fg.resourceNodes.length⟩] } := by
        simp [write, hpe, hfg, hres, hbe]
      rw [heq]
      refine ⟨?_, hi.rpass, ?_, ?_, ?_⟩
      · intro w hw
        rcases List.mem_append.mp hw with h' | h'
        · exact hi.wpass w h'
        · have : w = ⟨fg.passNodes.length - 1, fg.resourceNodes.length⟩ := by simpa using h'
          rw [this]
          show fg.passNodes.length - 1 < fg.passNodes.length
          omega
      · intro e he
        have := hi.rnode e he
        simp only [List.length_append]
        omega
      · intro s hs
        rcases mem_listSet hs with h' | h'
        · have := hi.snode s h'
          simp only [List.length_append]
          omega
        · rw [h']
          simp only [List.length_append, List.length_cons, List.length_nil]
          omega
      · intro w hw e he
        rcases List.mem_append.mp hw with h' | h'
        · exact hi.order w h' e he
        · have hw' : w = ⟨fg.passNodes.length - 1, fg.resourceNodes.length⟩ := by simpa using h'
          intro hnode
          exfalso
          have := hi.rnode e he
          rw [hw'] at hnode
          simp only at hnode
          omega

theorem inv_forward (fg : FrameGraph) (a b : FrameGraphHandle) (hi : Inv fg) :
    Inv (forwardSubResource fg a b).fg := by
  rcases hS : listGet? fg.slots a.index with _ | slotS
  · simpa [forwardSubResource, hS] using hi
  rcases hR : listGet? fg.slots b.index with _ | slotR
  · simpa [forwardSubResource, hS, hR] using hi
  rcases hrS : listGet? fg.resources slotS.rid with _ | rS
  · simpa [forwardSubResource, hS, hR, hrS] using hi
  rcases hrR : listGet? fg.resources slotR.rid with _ | rR
  · simpa [forwardSubResource, hS, hR, hrS, hrR] using hi
  cases hbe : (a.version == rS.version && b.version == rR.version) with
  | false => simpa [forwardSubResource, hS, hR, hrS, hrR, hbe] using hi
  | true =>
    have heq : (forwardSubResource fg a b).fg = { fg with
        resources := listSet fg.resources slotS.rid
          { rS with version := rS.version + 1, usage := Nat.lor rS.usage rR.usage },
        resourceNodes := fg.resourceNodes ++ [⟨slotS.rid, rS.version + 1⟩],
        slots := listSet (listSet fg.slots a.index
            { slotS with nid := fg.resourceNodes.length })
          b.index ⟨slotS.rid, fg.resourceNodes.length⟩ } := by
      simp [forwardSubResource, hS, hR, hrS, hrR, hbe]
    rw [heq]
    refine ⟨hi.wpass, hi.rpass, ?_, ?_, hi.order⟩
    · intro e he
      have := hi.rnode e he
      simp only [List.length_append]
      omega
    · intro s hs
      rcases mem_listSet hs with h' | h'
      · rcases mem_listSet h' with h'' | h''
        · have := hi.snode s h''
          simp only [List.length_append]
          omega
        · rw [h'']
          simp only [List.length_append, List.length_cons, List.length_nil]
          omega
      · rw [h']
        simp only [List.length_append, List.length_cons, List.length_nil]
        omega

theorem built_inv {fg : FrameGraph} (hb : Built fg) : Inv fg := by
  induction hb with
  | mkEmpty => exact inv_empty
  | mkPass fg name _ ih => exact inv_addPass fg name ih
  | mkSide fg _ ih => exact inv_sideEffect fg ih
  | mkCreate fg name _ ih => exact inv_create fg name ih
  | mkImport fg name _ ih => exact inv_import fg name ih
  | mkRead fg h u _ ih => exact inv_read fg h u ih
  | mkWrite fg h u _ ih => exact inv_write fg h u ih
  | mkForward fg a b _ ih => exact inv_forward fg a b ih

/-! Execution order: the schedule lists live passes in declaration order. -/

theorem mem_exists_listGet? {α : Type} {l : List α} {a : α} (h : a ∈ l) :
    ∃ n, listGet? l n = some a := by
  induction l with
  | nil => cases h
  | cons b t ih =>
    rcases List.mem_cons.mp h with rfl | h'
    · exact ⟨0, rfl⟩
    · obtain ⟨n, hn⟩ := ih h'
      exact ⟨n + 1, hn⟩

theorem pairwise_execBefore {l : List Nat} (hp : l.Pairwise (· < ·)) {p1 p2 : Nat}
    (h1 : p1 ∈ l) (h2 : p2 ∈ l) (hlt : p1 < p2) : execBefore l p1 p2 := by
  induction l with
  | nil => cases h1
  | cons a t ih =>
    obtain ⟨hhead, htail⟩ := List.pairwise_cons.mp hp
    rcases List.mem_cons.mp h1 with rfl | h1'
    · have h2' : p2 ∈ t := by
        rcases List.mem_cons.mp h2 with rfl | h
        · omega
        · exact h
      obtain ⟨j, hj⟩ := mem_exists_listGet? h2'
      exact ⟨0, j + 1, Nat.succ_pos j, rfl, hj⟩
    · rcases List.mem_cons.mp h2 with rfl | h2'
      · exact absurd (hhead p1 h1') (by omega)
      · obtain ⟨i, j, hij, hi, hj⟩ := ih htail h1' h2'
        exact ⟨i + 1, j + 1, by omega, hi, hj⟩

theorem schedule_pairwise (fg : FrameGraph) : (executeSchedule fg).Pairwise (· < ·) :=
  (List.pairwise_lt_range fg.passNodes.length).filter _

theorem mem_schedule (fg : FrameGraph) (p : Nat) (hp : p < fg.passNodes.length)
    (hl : liveB fg (Sum.inl p) = true) : p ∈ executeSchedule fg :=
  List.mem_filter.mpr ⟨List.mem_range.mpr hp, hl⟩

/-- C4: in an API-built graph, if live pass p1 writes the resource-node version
that live pass p2 reads (p1 and p2 distinct), then execute() invokes p1's
closure before p2's: the schedule walks live passes in declaration order and
edges never point to later-declared passes
(spec sections 4.1 and 4.3; FrameGraph.h lines 215-220). -/
theorem topological_soundness (fg : FrameGraph) (p1 p2 v : Nat) (hb : Built fg)
    (hw : (⟨p1, v⟩ : WriteEdge) ∈ fg.writeEdges)
    (hr : (⟨v, p2⟩ : ReadEdge) ∈ fg.readEdges)
    (hne : p1 ≠ p2)
    (h1 : liveB fg (Sum.inl p1) = true) (h2 : liveB fg (Sum.inl p2) = true) :
    execBefore (executeSchedule fg) p1 p2 := by
  have hi := built_inv hb
  have hle : p1 ≤ p2 := hi.order ⟨p1, v⟩ hw ⟨v, p2⟩ hr rfl
  have hlt : p1 < p2 := lt_of_le_of_ne hle hne
  have m1 : p1 ∈ executeSchedule fg := mem_schedule fg p1 (hi.wpass ⟨p1, v⟩ hw) h1
  have m2 : p2 ∈ executeSchedule fg := mem_schedule fg p2 (hi.rpass ⟨v, p2⟩ hr) h2
  exact pairwise_execBefore (schedule_pairwise fg) m1 m2 hlt

/-- C4 witness: in fgChain, live pass 0 writes node 1 which live pass 1 reads,
and pass 0 is scheduled before pass 1. -/
theorem topological_soundness_witness :
    ((⟨0, 1⟩ : WriteEdge) ∈ fgChain.writeEdges) ∧
      ((⟨1, 1⟩ : ReadEdge) ∈ fgChain.readEdges) ∧
      (0 : Nat) ≠ 1 ∧
      liveB fgChain (Sum.inl 0) = true ∧ liveB fgChain (Sum.inl 1) = true ∧
      execBefore (executeSchedule fgChain) 0 1 :=
  ⟨by decide, by decide, by decide, by decide, by decide,
    topological_soundness fgChain 0 1 1
      (Built.mkSide _ (Built.mkRead _ ⟨0, 1⟩ 0 (Built.mkPass _ "p1"
        (Built.mkWrite _ ⟨0, 0⟩ 0 (Built.mkPass _ "p0"
          (Built.mkCreate emptyFG "r" Built.mkEmpty))))))
      (by decide) (by decide) (by decide) (by decide) (by decide)⟩

/-! Allocator trace: counting events per resource. -/

theorem countEvent_append (a : AllocEvent) (l1 l2 : List AllocEvent) :
    countEvent a (l1 ++ l2) = countEvent a l1 + countEvent a l2 := by
  induction l1 with
  | nil => simp [countEvent]
  | cons e t ih =>
    show (if e = a then 1 else 0) + countEvent a (t ++ l2) =
      ((if e = a then 1 else 0) + countEvent a t) + countEvent a l2
    rw [ih]
    omega

theorem countEvent_flatten (a : AllocEvent) (L : List (List AllocEvent)) :
    countEvent a L.flatten = (L.map (countEvent a)).sum := by
  induction L with
  | nil => rfl
  | cons l t ih => simp only [List.flatten, List.map, List.sum_cons, countEvent_append, ih]

theorem sum_map_range_zero (g : Nat → Nat) (n : Nat) (h : ∀ v, v < n → g v = 0) :
    ((List.range n).map g).sum = 0 := by
  induction n with
  | zero => rfl
  | succ n ih =>
    rw [List.range_succ, List.map_append, List.sum_append]
    rw [ih (fun v hv => h v (by omega))]
    simp [h n (by omega)]

theorem sum_map_range_indicator (g : Nat → Nat) (n v0 : Nat) (hv : v0 < n)
    (h : ∀ v, v < n → g v = if v = v0 then 1 else 0) :
    ((List.range n).map g).sum = 1 := by
  induction n with
  | zero => omega
  | succ n ih =>
    rw [List.range_succ, List.map_append, List.sum_append]
    by_cases hv0 : v0 = n
    · subst hv0
      rw [sum_map_range_zero g v0 (fun v hv' => by rw [h v (by omega), if_neg (by omega)])]
      simp [h v0 (by omega)]
    · rw [ih (by omega) (fun v hv' => h v (by omega))]
      have hn : g n = 0 := by rw [h n (by omega), if_neg (fun e => hv0 e.symm)]
      simp [hn]

theorem head?_mem' {α : Type} {l : List α} {a : α} (h : l.head? = some a) : a ∈ l := by
  cases l with
  | nil => cases h
  | cons b t =>
    have : b = a := by simpa using h
    rw [← this]
    exact List.mem_cons_self b t

/-- Facts about the first live node of a resource: it is itself a live node of
that resource. -/
theorem firstLiveNode_spec (fg : FrameGraph) (rid v0 : Nat)
    (h : firstLiveNode fg rid = some v0) :
    nodeBelongs fg v0 rid = true ∧ liveB fg (Sum.inr v0) = true := by
  have hm : v0 ∈ liveNodesOf fg rid := head?_mem' h
  have := (List.mem_filter.mp hm).2
  exact ⟨bool_and_left this, bool_and_right this⟩

theorem lastLiveNode_spec (fg : FrameGraph) (rid v1 : Nat)
    (h : lastLiveNode fg rid = some v1) :
    nodeBelongs fg v1 rid = true ∧ liveB fg (Sum.inr v1) = true := by
  have hm : v1 ∈ liveNodesOf fg rid := List.mem_reverse.mp (head?_mem' h)
  have := (List.mem_filter.mp hm).2
  exact ⟨bool_and_left this, bool_and_right this⟩

theorem liveNode_mem (fg : FrameGraph) (rid v : Nat) (hb : nodeBelongs fg v rid = true)
    (hl : liveB fg (Sum.inr v) = true) : v ∈ liveNodesOf fg rid := by
  have hv : v < fg.resourceNodes.length := by
    unfold nodeBelongs at hb
    rcases hnd : listGet? fg.resourceNodes v with _ | nd
    · rw [hnd] at hb; cases hb
    · exact listGet?_lt hnd
  exact List.mem_filter.mpr ⟨List.mem_range.mpr hv, by simp [hb, hl]⟩

theorem liveNodes_first_last (fg : FrameGraph) (rid v : Nat)
    (hb : nodeBelongs fg v rid = true) (hl : liveB fg (Sum.inr v) = true) :
    (∃ v0, firstLiveNode fg rid = some v0) ∧ ∃ v1, lastLiveNode fg rid = some v1 := by
  have hm := liveNode_mem fg rid v hb hl
  constructor
  · cases hL : liveNodesOf fg rid with
    | nil => rw [hL] at hm; cases hm
    | cons x t => exact ⟨x, by simp [firstLiveNode, hL]⟩
  · cases hR : (liveNodesOf fg rid).reverse with
    | nil =>
      have : liveNodesOf fg rid = [] := by
        have := congrArg List.reverse hR
        simpa using this
      rw [this] at hm; cases hm
    | cons x t => exact ⟨x, by simp [lastLiveNode, hR]⟩

/-- An imported resource contributes no allocator event at any node
(the eventsAt guard skips imported resources). -/
theorem eventsAt_imported_zero (fg : FrameGraph) (rid v : Nat)
    (him : importedB fg rid = true) :
    countEvent (AllocEvent.allocate rid) (eventsAt fg v) = 0 ∧
      countEvent (AllocEvent.destroy rid) (eventsAt fg v) = 0 := by
  rcases hnd : listGet? fg.resourceNodes v with _ | nd
  · simp only [eventsAt, hnd]
    exact ⟨rfl, rfl⟩
  simp only [eventsAt, hnd]
  by_cases hrid : nd.rid = rid
  · simp [hrid, him, countEvent]
  · cases himn : importedB fg nd.rid with
    | true => simp [himn, countEvent]
    | false =>
      simp only [himn, Bool.false_eq_true, if_false]
      cases hlv : liveB fg (Sum.inr v) with
      | false => simp [countEvent]
      | true =>
        simp only [if_true]
        constructor
        · rw [countEvent_append]
          have h1 : countEvent (AllocEvent.allocate rid)
              (if firstLiveNode fg nd.rid = some v then [AllocEvent.allocate nd.rid]
                else []) = 0 := by
            split <;> simp [countEvent, hrid]
          have h2 : countEvent (AllocEvent.allocate rid)
              (if lastLiveNode fg nd.rid = some v then [AllocEvent.destroy nd.rid]
                else []) = 0 := by
            split <;> simp [countEvent]
          rw [h1, h2]
        · rw [countEvent_append]
          have h1 : countEvent (AllocEvent.destroy rid)
              (if firstLiveNode fg nd.rid = some v then [AllocEvent.allocate nd.rid]
                else []) = 0 := by
            split <;> simp [countEvent]
          have h2 : countEvent (AllocEvent.destroy rid)
              (if lastLiveNode fg nd.rid = some v then [AllocEvent.destroy nd.rid]
                else []) = 0 := by
            split <;> simp [countEvent, hrid]
          rw [h1, h2]

theorem eventsAt_alloc_indicator (fg : FrameGraph) (rid v0 : Nat)
    (hfirst : firstLiveNode fg rid = some v0) (him : importedB fg rid = false) :
    ∀ v, countEvent (AllocEvent.allocate rid) (eventsAt fg v) = if v = v0 then 1 else 0 := by
  obtain ⟨hb0, hl0⟩ := firstLiveNode_spec fg rid v0 hfirst
  obtain ⟨nd0, hnd0, hrid0⟩ : ∃ nd0, listGet? fg.resourceNodes v0 = some nd0 ∧ nd0.rid = rid := by
    unfold nodeBelongs at hb0
    rcases hnd : listGet? fg.resourceNodes v0 with _ | nd0
    · rw [hnd] at hb0; cases hb0
    · rw [hnd] at hb0; exact ⟨nd0, rfl, by simpa using hb0⟩
  intro v
  rcases hnd : listGet? fg.resourceNodes v with _ | nd
  · simp only [eventsAt, hnd]
    rw [if_neg (fun e => by rw [e, hnd0] at hnd; cases hnd)]
    rfl
  simp only [eventsAt, hnd]
  by_cases hrid : nd.rid = rid
  · rw [hrid, him]
    simp only [Bool.false_eq_true, if_false]
    cases hlv : liveB fg (Sum.inr v) with
    | false =>
      simp only [Bool.false_eq_true, if_false]
      rw [if_neg (fun e => by rw [e, hl0] at hlv; cases hlv)]
      rfl
    | true =>
      simp only [if_true]
      rw [countEvent_append]
      have hdz : countEvent (AllocEvent.allocate rid)
          (if lastLiveNode fg rid = some v then [AllocEvent.destroy rid] else []) = 0 := by
        split <;> simp [countEvent]
      rw [hdz]
      by_cases hv : v = v0
      · subst hv
        rw [if_pos hfirst, if_pos rfl]
        simp [countEvent]
      · rw [if_neg (fun e => hv (by rw [hfirst] at e; exact (Option.some.inj e).symm))]
        rw [if_neg hv]
        rfl
  · have hvne : v ≠ v0 := fun e => by
      rw [e, hnd0] at hnd
      exact hrid (by rw [← Option.some.inj hnd]; exact hrid0)
    rw [if_neg hvne]
    cases himn : importedB fg nd.rid with
    | true => simp [himn, countEvent]
    | false =>
      simp only [himn, Bool.false_eq_true, if_false]
      cases hlv : liveB fg (Sum.inr v) with
      | false => simp [countEvent]
      | true =>
        simp only [if_true]
        rw [countEvent_append]
        have h1 : countEvent (AllocEvent.allocate rid)
            (if firstLiveNode fg nd.rid = some v then [AllocEvent.allocate nd.rid]
              else []) = 0 := by
          split <;> simp [countEvent, hrid]
        have h2 : countEvent (AllocEvent.allocate rid)
            (if lastLiveNode fg nd.rid = some v then [AllocEvent.destroy nd.rid]
              else []) = 0 := by
          split <;> simp [countEvent]
        rw [h1, h2]

theorem eventsAt_destroy_indicator (fg : FrameGraph) (rid v1 : Nat)
    (hlast : lastLiveNode fg rid = some v1) (him : importedB fg rid = false) :
    ∀ v, countEvent (AllocEvent.destroy rid) (eventsAt fg v) = if v = v1 then 1 else 0 := by
  obtain ⟨hb1, hl1⟩ := lastLiveNode_spec fg rid v1 hlast
  obtain ⟨nd1, hnd1, hrid1⟩ : ∃ nd1, listGet? fg.resourceNodes v1 = some nd1 ∧ nd1.rid = rid := by
    unfold nodeBelongs at hb1
    rcases hnd : listGet? fg.resourceNodes v1 with _ | nd1
    · rw [hnd] at hb1; cases hb1
    · rw [hnd] at hb1; exact ⟨nd1, rfl, by simpa using hb1⟩
  intro v
  rcases hnd : listGet? fg.resourceNodes v with _ | nd
  · simp only [eventsAt, hnd]
    rw [if_neg (fun e => by rw [e, hnd1] at hnd; cases hnd)]
    rfl
  simp only [eventsAt, hnd]
  by_cases hrid : nd.rid = rid
  · rw [hrid, him]
    simp only [Bool.false_eq_true, if_false]
    cases hlv : liveB fg (Sum.inr v) with
    | false =>
      simp only [Bool.false_eq_true, if_false]
      rw [if_neg (fun e => by rw [e, hl1] at hlv; cases hlv)]
      rfl
    | true =>
      simp only [if_true]
      rw [countEvent_append]
      have haz : countEvent (AllocEvent.destroy rid)
          (if firstLiveNode fg rid = some v then [AllocEvent.allocate rid] else []) = 0 := by
        split <;> simp [countEvent]
      rw [haz]
      by_cases hv : v = v1
      · subst hv
        rw [if_pos hlast, if_pos rfl]
        simp [countEvent]
      · rw [if_neg (fun e => hv (by rw [hlast] at e; exact (Option.some.inj e).symm))]
        rw [if_neg hv]
        rfl
  · have hvne : v ≠ v1 := fun e => by
      rw [e, hnd1] at hnd
      exact hrid (by rw [← Option.some.inj hnd]; exact hrid1)
    rw [if_neg hvne]
    cases himn : importedB fg nd.rid with
    | true => simp [himn, countEvent]
    | false =>
      simp only [himn, Bool.false_eq_true, if_false]
      cases hlv : liveB fg (Sum.inr v) with
      | false => simp [countEvent]
      | true =>
        simp only [if_true]
        rw [countEvent_append]
        have h1 : countEvent (AllocEvent.destroy rid)
            (if firstLiveNode fg nd.rid = some v then [AllocEvent.allocate nd.rid]
              else []) = 0 := by
          split <;> simp [countEvent]
        have h2 : countEvent (AllocEvent.destroy rid)
            (if lastLiveNode fg nd.rid = some v then [AllocEvent.destroy nd.rid]
              else []) = 0 := by
          split <;> simp [countEvent, hrid]
        rw [h1, h2]

/-- C8: an imported resource is never passed to the allocator (neither
allocate nor destroy appears in the frame's allocator trace for it); a
non-imported resource with at least one live node is allocated exactly once
and destroyed exactly once per frame (ResourceEntry.cpp lines 26-28;
FrameGraph.h lines 257-269; spec sections 4.3 and 6). -/
theorem import_lifetime (fg : FrameGraph) (rid : Nat) (r : VirtualResource)
    (hr : listGet? fg.resources rid = some r) :
    (r.imported = true →
      countEvent (AllocEvent.allocate rid) (frameTrace fg) = 0 ∧
        countEvent (AllocEvent.destroy rid) (frameTrace fg) = 0) ∧
      (r.imported = false →
        (∃ v, nodeBelongs fg v rid = true ∧ liveB fg (Sum.inr v) = true) →
        countEvent (AllocEvent.allocate rid) (frameTrace fg) = 1 ∧
          countEvent (AllocEvent.destroy rid) (frameTrace fg) = 1) := by
  have himdef : importedB fg rid = r.imported := by simp [importedB, hr]
  constructor
  · intro him
    have him' : importedB fg rid = true := by rw [himdef, him]
    constructor
    · rw [frameTrace, countEvent_flatten, List.map_map]
      exact sum_map_range_zero _ _ (fun v _ => (eventsAt_imported_zero fg rid v him').1)
    · rw [frameTrace, countEvent_flatten, List.map_map]
      exact sum_map_range_zero _ _ (fun v _ => (eventsAt_imported_zero fg rid v him').2)
  · intro him hex
    obtain ⟨v, hb, hl⟩ := hex
    have him' : importedB fg rid = false := by rw [himdef, him]
    obtain ⟨⟨v0, hfirst⟩, ⟨v1, hlast⟩⟩ := liveNodes_first_last fg rid v hb hl
    have hv0lt : v0 < fg.resourceNodes.length := by
      obtain ⟨hb0, _⟩ := firstLiveNode_spec fg rid v0 hfirst
      unfold nodeBelongs at hb0
      rcases hnd : listGet? fg.resourceNodes v0 with _ | nd0
      · rw [hnd] at hb0; cases hb0
      · exact listGet?_lt hnd
    have hv1lt : v1 < fg.resourceNodes.length := by
      obtain ⟨hb1, _⟩ := lastLiveNode_spec fg rid v1 hlast
      unfold nodeBelongs at hb1
      rcases hnd : listGet? fg.resourceNodes v1 with _ | nd1
      · rw [hnd] at hb1; cases hb1
      · exact listGet?_lt hnd
    constructor
    · rw [frameTrace, countEvent_flatten, List.map_map]
      exact sum_map_range_indicator _ _ v0 hv0lt
        (fun w _ => eventsAt_alloc_indicator fg rid v0 hfirst him' w)
    · rw [frameTrace, countEvent_flatten, List.map_map]
      exact sum_map_range_indicator _ _ v1 hv1lt
        (fun w _ => eventsAt_destroy_indicator fg rid v1 hlast him' w)

/-- C8 witness: in fgAllocW the imported resource 0 never reaches the
allocator, and the live created resource 1 is allocated and destroyed exactly
once. -/
theorem import_lifetime_witness :
    listGet? fgAllocW.resources 0 = some ⟨"imp", true, 0, 0⟩ ∧
      listGet? fgAllocW.resources 1 = some ⟨"mem", false, 1, 0⟩ ∧
      (countEvent (AllocEvent.allocate 0) (frameTrace fgAllocW) = 0 ∧
        countEvent (AllocEvent.destroy 0) (frameTrace fgAllocW) = 0) ∧
      (countEvent (AllocEvent.allocate 1) (frameTrace fgAllocW) = 1 ∧
        countEvent (AllocEvent.destroy 1) (frameTrace fgAllocW) = 1) :=
  ⟨by decide, by decide,
    (import_lifetime fgAllocW 0 ⟨"imp", true, 0, 0⟩ (by decide)).1 rfl,
    (import_lifetime fgAllocW 1 ⟨"mem", false, 1, 0⟩ (by decide)).2 rfl
      ⟨2, by decide, by decide⟩⟩

end fg2
